import Mathlib

/-!
Verification of `falcon/request_helpers.py`: the cookie-header parser, the
entity-tag (ETag) header parser, and the `BoundedStream` wrapper.  Python
strings are embedded as `List Char` (header code points lie in 0x00-0xFF per
the PEP 3333 note in the source), machine integers as `Int`, and the stateful
stream as explicit state passing.
-/

set_option maxHeartbeats 1000000

/-- Python whitespace, as recognised by `str.strip()` and by the regex class
`\s`, restricted to the Latin-1 range that header strings inhabit. -/
def isPySpace (c : Char) : Bool :=
  c == ' ' || c == '\t' || c == '\n' || c == '\r' || c == '\x0b' || c == '\x0c' ||
  c == '\x1c' || c == '\x1d' || c == '\x1e' || c == '\x1f' || c == '\x85' || c == '\xa0'

/-- Python `str.strip()` on a character list. -/
def pyStrip (cs : List Char) : List Char :=
  ((cs.dropWhile isPySpace).reverse.dropWhile isPySpace).reverse

/-- Python `str.split(sep)` for a one-character separator: every occurrence
splits, empty pieces are kept, and the empty string yields one empty piece. -/
def splitChar (sep : Char) : List Char → List (List Char)
  | [] => [[]]
  | c :: cs =>
    if c == sep then [] :: splitChar sep cs
    else
      match splitChar sep cs with
      | [] => [[c]]
      | t :: ts => (c :: t) :: ts

/-- Python `token.partition(sep)` for a one-character separator, keeping the
parts before and after the first occurrence; when the separator is absent the
second part is empty, exactly as the source consumes the triple. -/
def partitionChar (sep : Char) : List Char → List Char × List Char
  | [] => ([], [])
  | c :: cs =>
    if c == sep then ([], cs)
    else
      let p := partitionChar sep cs
      (c :: p.1, p.2)

/-- The character class of `_COOKIE_NAME_RESERVED_CHARS`
(`[\x00-\x1F\x7F-\xFF()<>@,;:\\"/[\]?={} \x09]`, line 29 of the source). -/
def isCookieNameReserved (c : Char) : Bool :=
  c.val ≤ 0x1f || (0x7f ≤ c.val && c.val ≤ 0xff) ||
  c == '(' || c == ')' || c == '<' || c == '>' || c == '@' || c == ',' || c == ';' ||
  c == ':' || c == '\\' || c == '"' || c == '/' || c == '[' || c == ']' || c == '?' ||
  c == '=' || c == '\x7b' || c == '\x7d' || c == ' ' || c == '\t'

/-- Modelled from the spec: the backslash unescaping done by the standard
library helper that the source calls (its code is not part of this repository).
Per the spec, a backslash followed by any character stands for that character
taken literally. -/
def rfc2109Unescape : List Char → List Char
  | [] => []
  | '\\' :: c :: rest => c :: rfc2109Unescape rest
  | c :: rest => c :: rfc2109Unescape rest

/-- Modelled from the spec: stdlib `http_cookies._unquote` as used on line 83
of the source (`falcon.util.compat.http_cookies` re-exports the standard
library cookie module, which is not under src/).  A value of length at least
two that is wrapped in double quotes has the quotes removed and backslash
escapes resolved; anything else is returned unchanged. -/
def httpCookiesUnquote (v : List Char) : List Char :=
  if v.length < 2 then v
  else if v.head? = some '"' ∧ v.getLast? = some '"' then
    rfc2109Unescape ((v.drop 1).dropLast)
  else v

/-- Lines 82-83 of the source: the value is unquoted only when it is longer
than two characters and starts and ends with a double quote. -/
def processCookieValue (v : List Char) : List Char :=
  if 2 < v.length ∧ v.head? = some '"' ∧ v.getLast? = some '"' then
    httpCookiesUnquote v
  else v

/-- The same guard as the spec sentence words it (value at least two characters
long), for comparison with `processCookieValue`, whose source guard requires
strictly more than two. -/
def claimedCookieValue (v : List Char) : List Char :=
  if 2 ≤ v.length ∧ v.head? = some '"' ∧ v.getLast? = some '"' then
    httpCookiesUnquote v
  else v

/-- The dict update on lines 87-90 of the source: append to an existing entry,
or create a fresh single-element entry, preserving insertion order. -/
def addCookie : List (String × List String) → String → String → List (String × List String)
  | [], n, v => [(n, [v])]
  | (k, vs) :: rest, n, v =>
    if k = n then (k, vs ++ [v]) :: rest
    else (k, vs) :: addCookie rest n v

/-- Lookup in the association-list model of the Python dict. -/
def lookupM : List (String × List String) → String → Option (List String)
  | [], _ => none
  | (k, vs) :: rest, n => if k = n then some vs else lookupM rest n

/-- One iteration of the token loop of `parse_cookie_header` (lines 56-90):
partition on the first `=`, strip both parts, skip empty or reserved names,
unquote eligible values, and store. -/
def parseCookieToken (m : List (String × List String)) (token : List Char) :
    List (String × List String) :=
  let p := partitionChar '=' token
  let name := pyStrip p.1
  let value := pyStrip p.2
  if name = [] then m
  else if name.any isCookieNameReserved then m
  else addCookie m (String.mk name) (String.mk (processCookieValue value))

/-- `parse_cookie_header` (lines 34-92 of the source). -/
def parse_cookie_header (header_value : String) : List (String × List String) :=
  (splitChar ';' header_value.data).foldl parseCookieToken []

/-- The stripped name component of one cookie token. -/
def tokenName (t : List Char) : List Char := pyStrip (partitionChar '=' t).1

/-- The fully processed (stripped, possibly unquoted) value of one token. -/
def tokenValue (t : List Char) : String :=
  String.mk (processCookieValue (pyStrip (partitionChar '=' t).2))

/-- A cookie name the parser accepts: nonempty and free of reserved characters. -/
def validCookieName (n : List Char) : Bool :=
  !n.isEmpty && !n.any isCookieNameReserved

/-- The processed (name, value) pairs of a header, in encounter order. -/
def cookiePairs (s : String) : List (String × String) :=
  (splitChar ';' s.data).map (fun t => (String.mk (tokenName t), tokenValue t))

/-- The processed values carried by tokens of a given name, in encounter order. -/
def cookieValuesOf (s : String) (n : String) : List String :=
  ((cookiePairs s).filter (fun p => p.1 == n)).map Prod.snd

/-- The processed values carried by a list of (name, value) pairs for a given
name, in order. -/
def valuesOfP (ps : List (String × String)) (n : String) : List String :=
  (ps.filter (fun p => p.1 == n)).map Prod.snd

/-- Modelled from the spec: `falcon.util.ETag` (imported by the source but not
under src/).  Per the spec an entity tag is an immutable value of a tag text
and a weakness flag; `make_etag` sets both, and the weakness flag defaults to
false, so the `*` wildcard that the source stores as a plain string carries
weakness false. -/
structure ETag where
  tag : String
  is_weak : Bool
deriving DecidableEq, Repr

/-- `make_etag` (lines 116-129 of the source). -/
def make_etag (value : String) (is_weak : Bool) : ETag :=
  { tag := value, is_weak := is_weak }

/-- The separator branch `\s*,\s*` of `_ETAG_PATTERN`: the first non-space
character must be the comma, and trailing spaces are consumed greedily. -/
def matchSep (cs : List Char) : Option (List Char) :=
  match cs.dropWhile isPySpace with
  | ',' :: rest => some (rest.dropWhile isPySpace)
  | _ => none

/-- The trailing group `(?:\s*,\s*|$)` of `_ETAG_PATTERN`: the separator
alternative is tried first; `$` matches at the end of the string or just
before a final newline, consuming nothing. -/
def matchEndAlt (cs : List Char) : Option (List Char) :=
  match matchSep cs with
  | some rest => some rest
  | none => if cs = [] ∨ cs = ['\n'] then some cs else none

/-- The quoted alternative `"(.*?)"` followed by the trailing group, entered
after the opening quote: the lazy content grows to each successive closing
quote (never across a newline, which `.` does not match) until the trailing
group matches after it. -/
def quotedScan : List Char → List Char → Option (List Char × List Char)
  | _, [] => none
  | acc, c :: rest =>
    if c = '"' then
      match matchEndAlt rest with
      | some r => some (acc.reverse, r)
      | none => quotedScan (c :: acc) rest
    else if c = '\n' then none
    else quotedScan (c :: acc) rest

/-- The unquoted alternative `(.*?)` followed by the trailing group: lazily
extend the content (never across a newline) until the trailing group matches. -/
def rawScan : List Char → List Char → Option (List Char × List Char)
  | acc, [] =>
    match matchEndAlt [] with
    | some r => some (acc.reverse, r)
    | none => none
  | acc, c :: rest =>
    match matchEndAlt (c :: rest) with
    | some r => some (acc.reverse, r)
    | none => if c = '\n' then none else rawScan (c :: acc) rest

/-- The group `(?:"(.*?)"|(.*?))` followed by the trailing group: the quoted
alternative is tried first; on failure the unquoted alternative restarts from
the same position.  The result carries the two capture groups (exactly one of
which is some) and the suffix after the whole match. -/
def rawBody (cs : List Char) : Option (Option (List Char) × Option (List Char) × List Char) :=
  match rawScan [] cs with
  | some (content, r) => some (none, some content, r)
  | none => none

def etagBody (cs : List Char) : Option (Option (List Char) × Option (List Char) × List Char) :=
  match cs with
  | [] => rawBody []
  | c :: rest =>
    if c = '"' then
      match quotedScan [] rest with
      | some (content, r) => some (some content, none, r)
      | none => rawBody (c :: rest)
    else rawBody (c :: rest)

/-- `_ETAG_PATTERN.match` at a position, on the suffix starting there: the
optional weak prefix `([Ww]/)?` is tried greedily, backtracking to the empty
prefix if the rest of the pattern fails after it.  Returns the truth of the
weak group, the two value groups and the suffix after the match, or none when
the pattern does not match at this position. -/
def bodyNoWeak (cs : List Char) : Option (Bool × Option (List Char) × Option (List Char) × List Char) :=
  match etagBody cs with
  | some (q, r, rem) => some (false, q, r, rem)
  | none => none

def etagTokenMatch (cs : List Char) : Option (Bool × Option (List Char) × Option (List Char) × List Char) :=
  match cs with
  | c :: d :: rest =>
    if (c = 'W' ∨ c = 'w') ∧ d = '/' then
      match etagBody rest with
      | some (q, r, rem) => some (true, q, r, rem)
      | none => bodyNoWeak (c :: d :: rest)
    else bodyNoWeak (c :: d :: rest)
  | _ => bodyNoWeak cs

/-- The scan loop of `parse_etags` (lines 167-176 of the source), with explicit
fuel standing in for the while loop; `none` marks exhausted fuel (which models
a non-terminating loop and is proved unreachable for stripped input), `some
(Except.error ())` models the `AttributeError` raised when `match.groups()` is
evaluated on a failed match, and `some (Except.ok l)` a normal exit.  A token
is appended only when `quoted or raw` is truthy, mirroring `if value:`. -/
def etagScanLoop : Nat → List Char → List ETag → Option (Except Unit (List ETag))
  | 0, _, _ => none
  | fuel + 1, cs, acc =>
    if cs.isEmpty then some (Except.ok acc)
    else
      match etagTokenMatch cs with
      | none => some (Except.error ())
      | some (w, q, r, rest) =>
        let value := q.getD (r.getD [])
        etagScanLoop fuel rest
          (if value.isEmpty then acc else acc ++ [make_etag (String.mk value) w])

/-- The no-comma fast path of `parse_etags` (lines 158-166 of the source):
strip an optional case-insensitive `W/` prefix, then a single wrapping pair of
double quotes, and build one tag from whatever remains. -/
def singleEtag (t : List Char) : ETag :=
  let p : Bool × List Char :=
    match t with
    | c :: '/' :: rest => if c = 'W' ∨ c = 'w' then (true, rest) else (false, t)
    | _ => (false, t)
  let v := p.2
  let v2 :=
    if v ≠ [] ∧ v.head? = some '"' ∧ v.getLast? = some '"' then (v.drop 1).dropLast
    else v
  make_etag (String.mk v2) p.1

/-- `parse_etags` (lines 132-178 of the source).  `Except.ok none` models the
`None` return for an absent header, `Except.ok (some l)` a returned list, and
`Except.error ()` the `AttributeError` escaping from the scan loop.  The `*`
wildcard, which the source appends as a plain string, is represented as a tag
with text `*` and weakness false (see `ETag`). -/
def parse_etags (etag_str : Option String) : Except Unit (Option (List ETag)) :=
  match etag_str with
  | none => Except.ok none
  | some s =>
    let t := pyStrip s.data
    if t.isEmpty then Except.ok (some [])
    else if t = ['*'] then Except.ok (some [make_etag "*" false])
    else if !t.any (fun c => c == ',') then Except.ok (some [singleEtag t])
    else
      match etagScanLoop (t.length + 1) t [] with
      | some (Except.ok l) => Except.ok (some l)
      | some (Except.error e) => Except.error e
      | none => Except.error ()

/-- The size fix-up at the top of `BoundedStream._read` (lines 235-236 of the
source): `if size is None or size == -1 or size > self._bytes_remaining`
replaces the size by the remaining byte count. -/
def clampSize (size : Option Int) (remaining : Int) : Int :=
  match size with
  | none => remaining
  | some n => if n = -1 ∨ remaining < n then remaining else n

/-- The size fix-up as the claim words it: an unspecified, negative, or
oversized request is clamped to the remaining byte count; for comparison with
`clampSize`, whose source condition singles out `-1` rather than every
negative size. -/
def claimedClampSize (size : Option Int) (remaining : Int) : Int :=
  match size with
  | none => remaining
  | some n => if n < 0 ∨ remaining < n then remaining else n

/-- `BoundedStream` state: the declared length fixed at construction and the
mutable remaining-byte counter (`stream_len` and `_bytes_remaining`). -/
structure BoundedStream where
  stream_len : Int
  bytes_remaining : Int
deriving DecidableEq, Repr

/-- `BoundedStream.__init__` (lines 201-205): the counter starts at the
declared length. -/
def BoundedStream.init (stream_len : Int) : BoundedStream :=
  { stream_len := stream_len, bytes_remaining := stream_len }

/-- `BoundedStream._read` (lines 215-239): fix up the size, decrement the
counter by the fixed-up size, then call `target` with it.  `target` stands for
the underlying read primitive; the new state does not depend on what it
returns. -/
def BoundedStream.readCall (st : BoundedStream) (size : Option Int) (target : Int → α) :
    α × BoundedStream :=
  let s := clampSize size st.bytes_remaining
  (target s, { st with bytes_remaining := st.bytes_remaining - s })

/-- `BoundedStream.is_exhausted` (lines 314-317): true iff the counter is at
most zero. -/
def BoundedStream.is_exhausted (st : BoundedStream) : Bool :=
  st.bytes_remaining ≤ 0

/-- The public operations of the wrapper that the error-handling claims range
over: the three read variants (lines 253-293) and `write` (lines 295-298). -/
inductive StreamOp where
  | opRead (size : Option Int)
  | opReadline (limit : Option Int)
  | opReadlines (hint : Option Int)
  | opWrite (data : String)
deriving DecidableEq, Repr

/-- One call of a public operation.  The three read variants all delegate to
`_read`, recorded here by the size handed to the underlying source; `write`
raises `IOError` with the message on line 298 and touches nothing. -/
def BoundedStream.step (st : BoundedStream) (op : StreamOp) :
    BoundedStream × Except String (Option Int) :=
  match op with
  | .opRead size =>
    let p := st.readCall size (fun n => n)
    (p.2, Except.ok (some p.1))
  | .opReadline limit =>
    let p := st.readCall limit (fun n => n)
    (p.2, Except.ok (some p.1))
  | .opReadlines hint =>
    let p := st.readCall hint (fun n => n)
    (p.2, Except.ok (some p.1))
  | .opWrite _ => (st, Except.error "Stream is not writeable")

/-- A sequence of `read` calls: returns the sizes handed to the underlying
source, in order, and the final state. -/
def runReads : BoundedStream → List (Option Int) → List Int × BoundedStream
  | st, [] => ([], st)
  | st, size :: rest =>
    let p := st.readCall size (fun n => n)
    let next := runReads p.2 rest
    (p.1 :: next.1, next.2)

/-- The requested sizes that the source docstring promises to coerce: `None`,
`-1`, and (implicitly, by the guard) anything at least zero. -/
def benignSize (size : Option Int) : Bool :=
  match size with
  | none => true
  | some n => n == -1 || 0 ≤ n

theorem clampSize_le (size : Option Int) (r : Int) : clampSize size r ≤ r := by
  cases size with
  | none => simp [clampSize]
  | some n => simp only [clampSize]; split <;> omega

theorem clampSize_nonneg (size : Option Int) (r : Int) (hb : benignSize size = true)
    (hr : 0 ≤ r) : 0 ≤ clampSize size r := by
  cases size with
  | none => simpa [clampSize]
  | some n =>
    simp only [benignSize, Bool.or_eq_true, beq_iff_eq, decide_eq_true_eq] at hb
    simp only [clampSize]; split <;> omega

theorem clampSize_zero (size : Option Int) (hb : benignSize size = true) :
    clampSize size 0 = 0 := by
  cases size with
  | none => simp [clampSize]
  | some n =>
    simp only [benignSize, Bool.or_eq_true, beq_iff_eq, decide_eq_true_eq] at hb
    simp only [clampSize]; split <;> omega

theorem runReads_remaining_nonneg (sizes : List (Option Int)) :
    ∀ st : BoundedStream, 0 ≤ st.bytes_remaining →
      0 ≤ (runReads st sizes).2.bytes_remaining := by
  induction sizes with
  | nil => intro st h; simpa [runReads]
  | cons size rest ih =>
    intro st h
    simp only [runReads, BoundedStream.readCall]
    exact ih _ (by simp; have := clampSize_le size st.bytes_remaining; omega)

theorem runReads_sum (sizes : List (Option Int)) :
    ∀ st : BoundedStream,
      (runReads st sizes).1.sum =
        st.bytes_remaining - (runReads st sizes).2.bytes_remaining := by
  induction sizes with
  | nil => intro st; simp [runReads]
  | cons size rest ih =>
    intro st
    simp only [runReads, BoundedStream.readCall, List.sum_cons]
    rw [ih]
    dsimp only
    omega

theorem runReads_requests_nonneg (sizes : List (Option Int)) :
    ∀ st : BoundedStream, 0 ≤ st.bytes_remaining →
      (∀ sz ∈ sizes, benignSize sz = true) →
      ∀ x ∈ (runReads st sizes).1, 0 ≤ x := by
  induction sizes with
  | nil => intro st _ _ x hx; simp [runReads] at hx
  | cons size rest ih =>
    intro st h hb x hx
    simp only [runReads, BoundedStream.readCall, List.mem_cons] at hx
    rcases hx with rfl | hx
    · exact clampSize_nonneg size st.bytes_remaining (hb size (by simp)) h
    · exact ih _ (by simp; have := clampSize_le size st.bytes_remaining; omega)
        (fun sz hsz => hb sz (by simp [hsz])) x hx

theorem runReads_zero (sizes : List (Option Int)) :
    ∀ st : BoundedStream, st.bytes_remaining = 0 →
      (∀ sz ∈ sizes, benignSize sz = true) →
      (runReads st sizes).1 = sizes.map (fun _ => (0 : Int)) ∧
      (runReads st sizes).2 = st := by
  induction sizes with
  | nil => intro st _ _; simp [runReads]
  | cons size rest ih =>
    intro st h0 hb
    have hc : clampSize size st.bytes_remaining = 0 := by
      rw [h0]; exact clampSize_zero size (hb size (by simp))
    have hst : ({ st with bytes_remaining := st.bytes_remaining - clampSize size st.bytes_remaining } : BoundedStream) = st := by
      cases st
      simp_all
    simp only [runReads, BoundedStream.readCall, hst, List.map_cons]
    have := ih st h0 (fun sz hsz => hb sz (by simp [hsz]))
    exact ⟨by rw [hc, this.1], this.2⟩

/-- C1 counterexample.  The claim quantifies over arbitrary requested sizes,
negative ones included, and asserts the underlying source is never asked for
more than the declared length in total.  Starting from `declared_length = 0`,
the call `read(-2)` slips through the fix-up (only `None`, `-1`, and oversized
requests are coerced) and the counter `0 - (-2) = 2` now exceeds the declared
length, so the following `read()` hands the underlying source a request for 2
bytes against a total budget of 0: the sizes passed to the source are
`[-2, 2]`, and counting a request for `n` bytes as `max n 0` bytes (a source
cannot be asked for a negative number of bytes; in Python a negative size is a
read-to-EOF), the cumulative number of bytes requested is 2 > 0. -/
theorem runReads_overdraft_cex :
    runReads (BoundedStream.init 0) [some (-2), none] = ([-2, 2], ⟨0, 0⟩) ∧
    ((runReads (BoundedStream.init 0) [some (-2), none]).1.map (fun r => max r 0)).sum = 2 ∧
    ¬ ((2 : Int) ≤ 0) := by decide

/-- C1 as amended: for every sequence of `read` calls the `bytes_remaining`
counter stays nonnegative, and when every requested size is `None`, `-1`, or
nonnegative — the sizes the source fix-up actually coerces — every size handed
to the underlying source is nonnegative and their cumulative sum over every
prefix of the call sequence never exceeds the declared length. -/
theorem runReads_bounded_of_benign (L : Int) (hL : 0 ≤ L) (sizes : List (Option Int)) :
    (∀ k : Nat, 0 ≤ (runReads (BoundedStream.init L) (sizes.take k)).2.bytes_remaining) ∧
    ((∀ sz ∈ sizes, benignSize sz = true) →
      (∀ x ∈ (runReads (BoundedStream.init L) sizes).1, 0 ≤ x) ∧
      ∀ k : Nat, (runReads (BoundedStream.init L) (sizes.take k)).1.sum ≤ L) := by
  have hinit : (BoundedStream.init L).bytes_remaining = L := rfl
  constructor
  · intro k
    exact runReads_remaining_nonneg (sizes.take k) _ (by rw [hinit]; exact hL)
  · intro hb
    constructor
    · exact runReads_requests_nonneg sizes _ (by rw [hinit]; exact hL) hb
    · intro k
      have hs := runReads_sum (sizes.take k) (BoundedStream.init L)
      have hr := runReads_remaining_nonneg (sizes.take k) (BoundedStream.init L)
        (by rw [hinit]; exact hL)
      rw [hs, hinit]
      omega

/-- C1 witness: declared length 3, reads of 2 bytes, the rest (`None`), 5
bytes (oversized) and `-1`; the amended claim applies and in particular the
full-sequence request sum is at most 3. -/
theorem runReads_bounded_of_benign_witness :
    (0 : Int) ≤ 3 ∧
    (runReads (BoundedStream.init 3) ([some 2, none, some 5, some (-1)].take 4)).1.sum ≤ 3 := by
  refine ⟨by decide, ?_⟩
  exact (runReads_bounded_of_benign 3 (by decide) [some 2, none, some 5, some (-1)]).2
    (by decide) |>.2 4

/-- C2 counterexample.  The claim says a negative requested size is clamped to
`bytes_remaining`; the source coerces only `-1` (besides `None` and oversized
sizes), so `read(-2)` with 5 bytes remaining passes `-2` through to the
underlying source and the counter becomes `5 - (-2) = 7`, where the claim
predicts a request of 5 and a counter of 0 (`claimedClampSize` renders the
claim wording). -/
theorem clampSize_negative_cex :
    clampSize (some (-2)) 5 = -2 ∧ claimedClampSize (some (-2)) 5 = 5 ∧
    (BoundedStream.init 5).readCall (some (-2)) (fun n => n) = (-2, ⟨5, 7⟩) ∧
    ¬ ((-2 : Int) = 5) := by decide

/-- C2 as amended: a requested size that is unspecified, equal to `-1`, or
greater than `bytes_remaining` is clamped to `bytes_remaining` (any other
size, negative ones included, is used as is), and `bytes_remaining` is
decremented by exactly the fixed-up size before the underlying read is issued,
independently of what the underlying source returns. -/
theorem readCall_clamp_spec (st : BoundedStream) (size : Option Int) :
    ((size = none ∨ size = some (-1) ∨ ∃ n, size = some n ∧ st.bytes_remaining < n) →
      clampSize size st.bytes_remaining = st.bytes_remaining) ∧
    (∀ n : Int, size = some n → n ≠ -1 → n ≤ st.bytes_remaining →
      clampSize size st.bytes_remaining = n) ∧
    (∀ target : Int → String,
      st.readCall size target =
        (target (clampSize size st.bytes_remaining),
         ⟨st.stream_len, st.bytes_remaining - clampSize size st.bytes_remaining⟩)) := by
  refine ⟨?_, ?_, ?_⟩
  · rintro (rfl | rfl | ⟨n, rfl, h⟩)
    · rfl
    · simp [clampSize]
    · simp only [clampSize]; rw [if_pos (Or.inr h)]
  · rintro n rfl h1 h2
    simp only [clampSize]
    rw [if_neg (by omega)]
  · intro target
    rfl

/-- C2 witness: 5 bytes remaining and a request of 3 is not coerced; the
counter drops to 2 before the underlying read, whose returned data is passed
through. -/
theorem readCall_clamp_spec_witness :
    clampSize (some 3) (BoundedStream.init 5).bytes_remaining = 3 ∧
    (BoundedStream.init 5).readCall (some 3) (fun _ => "abc") = ("abc", ⟨5, 2⟩) := by
  have h := readCall_clamp_spec (BoundedStream.init 5) (some 3)
  have hc : clampSize (some 3) (BoundedStream.init 5).bytes_remaining = 3 :=
    h.2.1 3 rfl (by decide) (by decide)
  refine ⟨hc, ?_⟩
  rw [h.2.2 (fun _ => "abc"), hc]
  decide

/-- C3 counterexample.  With `bytes_remaining = 0` the stream is exhausted,
but a subsequent `read(-2)` slips through the size fix-up, pushes the counter
to 2, and `is_exhausted` becomes false again — the claim says it remains true
across every subsequent read. -/
theorem is_exhausted_unstable_cex :
    (BoundedStream.init 0).is_exhausted = true ∧
    ((BoundedStream.init 0).readCall (some (-2)) (fun n => n)).2.is_exhausted = false := by
  decide

/-- C3 as amended: once `bytes_remaining` reaches 0 the stream reports
`is_exhausted`, and under subsequent reads whose sizes are `None`, `-1`, or
nonnegative it stays exhausted, every size handed to the underlying source is
exactly 0, and any source that answers a 0-byte request with an empty result
makes every such read return empty. -/
theorem is_exhausted_stable_of_benign (st : BoundedStream) (sizes : List (Option Int))
    (h0 : st.bytes_remaining = 0) (hb : ∀ sz ∈ sizes, benignSize sz = true) :
    st.is_exhausted = true ∧
    (∀ k : Nat, (runReads st (sizes.take k)).2.is_exhausted = true) ∧
    (runReads st sizes).1 = sizes.map (fun _ => (0 : Int)) ∧
    (∀ target : Int → String, target 0 = "" → ∀ size : Option Int,
      benignSize size = true → (st.readCall size target).1 = "") := by
  refine ⟨?_, ?_, ?_, ?_⟩
  · simp [BoundedStream.is_exhausted, h0]
  · intro k
    have h := runReads_zero (sizes.take k) st h0
      (fun sz hsz => hb sz (List.take_subset k sizes hsz))
    rw [h.2]
    simp [BoundedStream.is_exhausted, h0]
  · exact (runReads_zero sizes st h0 hb).1
  · intro target ht size hsz
    have hc : clampSize size st.bytes_remaining = 0 := by
      rw [h0]; exact clampSize_zero size hsz
    simp [BoundedStream.readCall, hc, ht]

/-- C3 witness: an exhausted stream (declared length 0) under the reads
`read()`, `read(5)`, `read(0)`, `read(-1)` stays exhausted and asks the
underlying source for 0 bytes each time. -/
theorem is_exhausted_stable_of_benign_witness :
    (BoundedStream.init 0).is_exhausted = true ∧
    (runReads (BoundedStream.init 0) [none, some 5, some 0, some (-1)]).1 = [0, 0, 0, 0] := by
  have h := is_exhausted_stable_of_benign (BoundedStream.init 0)
    [none, some 5, some 0, some (-1)] (by decide) (by decide)
  exact ⟨h.1, by rw [h.2.2.1]; rfl⟩

/-- C4: `write` always fails with the "Stream is not writeable" error, for
every argument and in every state, leaving the state unchanged (the returned
state is the input state, and no underlying primitive is invoked), and it is
the only operation of the wrapper that produces an error. -/
theorem write_always_fails :
    (∀ (st : BoundedStream) (data : String),
      st.step (StreamOp.opWrite data) = (st, Except.error "Stream is not writeable")) ∧
    (∀ (st : BoundedStream) (op : StreamOp) (e : String),
      (st.step op).2 = Except.error e →
      (∃ data, op = StreamOp.opWrite data) ∧ e = "Stream is not writeable") := by
  constructor
  · intro st data; rfl
  · intro st op e h
    cases op with
    | opRead size => simp [BoundedStream.step] at h
    | opReadline limit => simp [BoundedStream.step] at h
    | opReadlines hint => simp [BoundedStream.step] at h
    | opWrite data =>
      refine ⟨⟨data, rfl⟩, ?_⟩
      simp only [BoundedStream.step, Except.error.injEq] at h
      exact h.symm

/-- C4 witness: a concrete write on a fresh stream of declared length 3. -/
theorem write_always_fails_witness :
    (BoundedStream.init 3).step (StreamOp.opWrite "x") =
      (BoundedStream.init 3, Except.error "Stream is not writeable") :=
  write_always_fails.1 (BoundedStream.init 3) "x"

theorem parseCookieToken_valid (m : List (String × List String)) (t : List Char)
    (h : validCookieName (tokenName t) = true) :
    parseCookieToken m t = addCookie m (String.mk (tokenName t)) (tokenValue t) := by
  simp only [validCookieName, Bool.and_eq_true, Bool.not_eq_true'] at h
  obtain ⟨h1, h2⟩ := h
  have h1' : ¬ (pyStrip (partitionChar '=' t).1 = []) := by
    intro hx
    rw [tokenName, hx] at h1
    simp at h1
  have h2' : ¬ ((pyStrip (partitionChar '=' t).1).any isCookieNameReserved = true) := by
    rw [tokenName] at h2
    simp [h2]
  simp only [parseCookieToken, tokenName, tokenValue]
  rw [if_neg h1', if_neg h2']

/-- C5 counterexample.  The claim lets a trimmed value of exactly two
characters that starts and ends with a double quote (the value `""`) be
unquoted to the empty string; the source guard requires strictly more than two
characters, so `parse_cookie_header` stores the two quote characters verbatim
(`claimedCookieValue` renders the guard as the claim words it). -/
theorem cookie_unquote_len2_cex :
    lookupM (parse_cookie_header "a=\"\"") "a" = some ["\"\""] ∧
    claimedCookieValue ("\"\"".data) = [] ∧
    processCookieValue ("\"\"".data) = "\"\"".data ∧
    ¬ (("\"\"" : String) = "") := by decide

/-- C5 as amended: a trimmed value of MORE than two characters that starts and
ends with a double quote is unquoted by stripping the wrapping quotes and
resolving backslash escapes (each backslash-character pair stands for the
character); any other value, the two-character `""` included, is stored
verbatim.  A token with a valid name stores exactly the value so processed. -/
theorem processCookieValue_spec (v : List Char) :
    ((2 < v.length ∧ v.head? = some '"' ∧ v.getLast? = some '"') →
      processCookieValue v = rfc2109Unescape ((v.drop 1).dropLast)) ∧
    (¬ (2 < v.length ∧ v.head? = some '"' ∧ v.getLast? = some '"') →
      processCookieValue v = v) ∧
    (∀ (m : List (String × List String)) (t : List Char),
      validCookieName (tokenName t) = true →
      parseCookieToken m t = addCookie m (String.mk (tokenName t)) (tokenValue t)) := by
  refine ⟨?_, ?_, fun m t h => parseCookieToken_valid m t h⟩
  · intro h
    rw [processCookieValue, if_pos h, httpCookiesUnquote, if_neg (by omega),
      if_pos ⟨h.2.1, h.2.2⟩]
  · intro h
    rw [processCookieValue, if_neg h]

/-- C5 witness: the five-character value `"1\"2"` (with an escaped quote) is
unquoted to `1"2`, and the three-character value `"x"` to `x`. -/
theorem processCookieValue_spec_witness :
    processCookieValue ("\"1\\\"2\"".data) =
      rfc2109Unescape (("\"1\\\"2\"".data.drop 1).dropLast) ∧
    rfc2109Unescape (("\"1\\\"2\"".data.drop 1).dropLast) = "1\"2".data ∧
    processCookieValue ("x".data) = "x".data := by
  refine ⟨(processCookieValue_spec ("\"1\\\"2\"".data)).1 (by decide), by decide,
    (processCookieValue_spec ("x".data)).2.1 (by decide)⟩

theorem lookupM_addCookie (m : List (String × List String)) (n v x : String) :
    lookupM (addCookie m n v) x =
      if x = n then some ((lookupM m n).getD [] ++ [v]) else lookupM m x := by
  induction m with
  | nil =>
    by_cases hx : x = n
    · subst hx; simp [addCookie, lookupM]
    · have hn : ¬ n = x := fun h => hx h.symm
      simp [addCookie, lookupM, hx, hn]
  | cons p rest ih =>
    obtain ⟨k, vs⟩ := p
    by_cases hk : k = n
    · subst hk
      by_cases hx : x = k
      · subst hx; simp [addCookie, lookupM]
      · have hkx : ¬ k = x := fun h => hx h.symm
        simp [addCookie, lookupM, hx, hkx]
    · by_cases hx : x = k
      · subst hx
        have hxn : ¬ x = n := hk
        simp [addCookie, lookupM, hk, hxn]
      · have hkx : ¬ k = x := fun h => hx h.symm
        simp [addCookie, lookupM, hk, hkx, ih]

theorem keys_addCookie_mem (m : List (String × List String)) (n v x : String) :
    x ∈ (addCookie m n v).map Prod.fst ↔ x ∈ m.map Prod.fst ∨ x = n := by
  induction m with
  | nil => simp [addCookie]
  | cons p rest ih =>
    obtain ⟨k, vs⟩ := p
    by_cases hk : k = n
    · subst hk
      have he : addCookie ((k, vs) :: rest) k v = (k, vs ++ [v]) :: rest := by
        simp [addCookie]
      rw [he]
      simp only [List.map_cons, List.mem_cons]
      tauto
    · simp [addCookie, hk, ih, or_assoc]

theorem keys_addCookie_nodup (m : List (String × List String)) (n v : String)
    (h : (m.map Prod.fst).Nodup) : ((addCookie m n v).map Prod.fst).Nodup := by
  induction m with
  | nil => simp [addCookie]
  | cons p rest ih =>
    obtain ⟨k, vs⟩ := p
    simp only [List.map_cons, List.nodup_cons] at h
    by_cases hk : k = n
    · subst hk
      have he : addCookie ((k, vs) :: rest) k v = (k, vs ++ [v]) :: rest := by
        simp [addCookie]
      rw [he]
      simp only [List.map_cons, List.nodup_cons]
      exact h
    · simp only [addCookie, if_neg hk, List.map_cons, List.nodup_cons]
      refine ⟨?_, ih h.2⟩
      rw [keys_addCookie_mem]
      rintro (hmem | rfl)
      · exact h.1 hmem
      · exact hk rfl

theorem cookieValuesOf_eq (s : String) (n : String) :
    cookieValuesOf s n = valuesOfP (cookiePairs s) n := rfl

theorem foldl_addCookie_lookup_some (ps : List (String × String)) :
    ∀ (m : List (String × List String)) (n : String) (vs : List String),
      lookupM m n = some vs →
      lookupM (ps.foldl (fun m p => addCookie m p.1 p.2) m) n =
        some (vs ++ valuesOfP ps n) := by
  induction ps with
  | nil => intro m n vs h; simp [valuesOfP, h]
  | cons p rest ih =>
    intro m n vs h
    simp only [List.foldl_cons]
    by_cases hp : p.1 = n
    · have hlook : lookupM (addCookie m p.1 p.2) n = some (vs ++ [p.2]) := by
        rw [lookupM_addCookie, if_pos hp.symm, hp, h]
        rfl
      rw [ih _ _ _ hlook]
      simp [valuesOfP, hp, List.filter_cons]
    · have hlook : lookupM (addCookie m p.1 p.2) n = some vs := by
        rw [lookupM_addCookie, if_neg (fun hq => hp hq.symm)]
        exact h
      rw [ih _ _ _ hlook]
      have hb : (p.1 == n) = false := by simp [hp]
      simp [valuesOfP, List.filter_cons, hb]

theorem foldl_addCookie_lookup_none (ps : List (String × String)) :
    ∀ (m : List (String × List String)) (n : String),
      lookupM m n = none →
      lookupM (ps.foldl (fun m p => addCookie m p.1 p.2) m) n =
        if (valuesOfP ps n).isEmpty then none else some (valuesOfP ps n) := by
  induction ps with
  | nil => intro m n h; simp [valuesOfP, h]
  | cons p rest ih =>
    intro m n h
    simp only [List.foldl_cons]
    by_cases hp : p.1 = n
    · have hlook : lookupM (addCookie m p.1 p.2) n = some [p.2] := by
        rw [lookupM_addCookie, if_pos hp.symm, hp, h]
        rfl
      rw [foldl_addCookie_lookup_some rest _ _ _ hlook]
      simp [valuesOfP, hp, List.filter_cons]
    · have hlook : lookupM (addCookie m p.1 p.2) n = none := by
        rw [lookupM_addCookie, if_neg (fun hq => hp hq.symm)]
        exact h
      rw [ih _ _ hlook]
      have hb : (p.1 == n) = false := by simp [hp]
      have hfil : List.filter (fun q => q.1 == n) (p :: rest) = List.filter (fun q => q.1 == n) rest := by
        rw [List.filter_cons]
        simp [hb]
      simp only [valuesOfP]
      rw [hfil]

theorem foldl_addCookie_nodup (ps : List (String × String)) :
    ∀ m : List (String × List String), (m.map Prod.fst).Nodup →
      ((ps.foldl (fun m p => addCookie m p.1 p.2) m).map Prod.fst).Nodup := by
  induction ps with
  | nil => intro m h; simpa
  | cons p rest ih =>
    intro m h
    exact ih _ (keys_addCookie_nodup m p.1 p.2 h)

/-- C6: for a header whose every `;`-separated token carries a valid name
(nonempty after trimming and free of reserved characters), the parser returns
one entry per distinct name — the key list has no duplicates — and looking up
any name yields exactly the processed values of the tokens bearing that name
in header (encounter) order, or nothing when the name does not occur. -/
theorem parse_cookie_header_grouped (s : String)
    (h : ∀ t ∈ splitChar ';' s.data, validCookieName (tokenName t) = true) :
    ((parse_cookie_header s).map Prod.fst).Nodup ∧
    ∀ n : String, lookupM (parse_cookie_header s) n =
      if (cookieValuesOf s n).isEmpty then none else some (cookieValuesOf s n) := by
  have hfold : parse_cookie_header s =
      (cookiePairs s).foldl (fun m p => addCookie m p.1 p.2) [] := by
    rw [parse_cookie_header, cookiePairs, List.foldl_map]
    exact List.foldl_ext _ _ _ (fun m t ht => parseCookieToken_valid m t (h t ht))
  constructor
  · rw [hfold]
    exact foldl_addCookie_nodup (cookiePairs s) [] (by simp)
  · intro n
    rw [hfold, cookieValuesOf_eq]
    exact foldl_addCookie_lookup_none (cookiePairs s) [] n rfl

/-- C6 witness: the spec example `a=1; a=2; b=3`. -/
theorem parse_cookie_header_grouped_witness :
    parse_cookie_header "a=1; a=2; b=3" = [("a", ["1", "2"]), ("b", ["3"])] ∧
    lookupM (parse_cookie_header "a=1; a=2; b=3") "a" = some ["1", "2"] ∧
    lookupM (parse_cookie_header "a=1; a=2; b=3") "b" = some ["3"] ∧
    lookupM (parse_cookie_header "a=1; a=2; b=3") "c" = none := by
  have h := parse_cookie_header_grouped "a=1; a=2; b=3" (by decide)
  refine ⟨by decide, ?_, ?_, ?_⟩
  · rw [h.2 "a"]; decide
  · rw [h.2 "b"]; decide
  · rw [h.2 "c"]; decide

theorem foldl_parseCookieToken_keys (ts : List (List Char)) :
    ∀ m : List (String × List String),
      (∀ k ∈ m.map Prod.fst, k ≠ "" ∧ ∀ c ∈ k.data, isCookieNameReserved c = false) →
      ∀ k ∈ (ts.foldl parseCookieToken m).map Prod.fst,
        k ≠ "" ∧ ∀ c ∈ k.data, isCookieNameReserved c = false := by
  induction ts with
  | nil => intro m hm k hk; exact hm k hk
  | cons t rest ih =>
    intro m hm
    apply ih
    intro k hk
    by_cases h1 : pyStrip (partitionChar '=' t).1 = []
    · rw [parseCookieToken, if_pos h1] at hk
      exact hm k hk
    · by_cases h2 : (pyStrip (partitionChar '=' t).1).any isCookieNameReserved = true
      · rw [parseCookieToken, if_neg h1, if_pos h2] at hk
        exact hm k hk
      · rw [parseCookieToken, if_neg h1, if_neg h2] at hk
        rw [keys_addCookie_mem] at hk
        rcases hk with hk | rfl
        · exact hm k hk
        · refine ⟨?_, ?_⟩
          · intro he
            apply h1
            have : (String.mk (pyStrip (partitionChar '=' t).1)).data = ("" : String).data :=
              congrArg String.data he
            simpa using this
          · intro c hc
            have hany := h2
            rw [Bool.not_eq_true, List.any_eq_false] at hany
            simpa using hany c (by simpa using hc)

/-- C7: for every header string, every key of the returned map is nonempty and
contains no reserved character (control characters 0x00-0x1F and 0x7F-0xFF,
the listed ASCII separators, space, and horizontal tab): tokens with such
names are dropped and never reach the map. -/
theorem parse_cookie_header_keys_valid (s : String) :
    ∀ k ∈ (parse_cookie_header s).map Prod.fst,
      k ≠ "" ∧ ∀ c ∈ k.data, isCookieNameReserved c = false := by
  rw [parse_cookie_header]
  exact foldl_parseCookieToken_keys (splitChar ';' s.data) [] (by simp)

/-- C7 witness: the spec example `bad name=x; ok=y` keeps only the key `ok`,
which is nonempty and reserved-free. -/
theorem parse_cookie_header_keys_valid_witness :
    parse_cookie_header "bad name=x; ok=y" = [("ok", ["y"])] ∧
    ("ok" ≠ "" ∧ ∀ c ∈ ("ok" : String).data, isCookieNameReserved c = false) :=
  ⟨by decide, parse_cookie_header_keys_valid "bad name=x; ok=y" "ok" (by decide)⟩

/-- C8: when the trimmed header string is exactly `*`, `parse_etags` returns a
one-element list holding the wildcard, represented as an entity tag with text
`*` and weakness flag false. -/
theorem parse_etags_wildcard (s : String) (h : pyStrip s.data = ['*']) :
    parse_etags (some s) = Except.ok (some [make_etag "*" false]) := by
  simp [parse_etags, h]

/-- C8 witness: the header value `" * "` trims to `*`. -/
theorem parse_etags_wildcard_witness :
    parse_etags (some " * ") = Except.ok (some [make_etag "*" false]) :=
  parse_etags_wildcard " * " (by decide)

theorem etagScanLoop_ok_tags (fuel : Nat) :
    ∀ (cs : List Char) (acc l : List ETag),
      (∀ e ∈ acc, e.tag ≠ "") →
      etagScanLoop fuel cs acc = some (Except.ok l) →
      ∀ e ∈ l, e.tag ≠ "" := by
  induction fuel with
  | zero => intro cs acc l _ h; simp [etagScanLoop] at h
  | succ fuel ih =>
    intro cs acc l hacc h
    rw [etagScanLoop] at h
    by_cases hcs : cs.isEmpty = true
    · rw [if_pos hcs] at h
      simp only [Option.some.injEq, Except.ok.injEq] at h
      subst h
      exact hacc
    · rw [if_neg hcs] at h
      cases hm : etagTokenMatch cs with
      | none => rw [hm] at h; simp at h
      | some q =>
        obtain ⟨w, qq, rr, rest⟩ := q
        rw [hm] at h
        simp only [] at h
        refine ih rest _ l ?_ h
        intro e he
        by_cases hv : (qq.getD (rr.getD [])).isEmpty = true
        · rw [if_pos hv] at he
          exact hacc e he
        · rw [if_neg hv] at he
          rcases List.mem_append.mp he with he | he
          · exact hacc e he
          · have he' : e = make_etag (String.mk (qq.getD (rr.getD []))) w := by
              simpa using he
            subst he'
            intro htag
            apply hv
            have : (qq.getD (rr.getD [])) = [] := congrArg String.data htag
            rw [this]
            rfl

/-- C10: when the trimmed input is nonempty, comma-free, and not `*`, the
parser takes the single-tag fast path and returns exactly one tag (which may
have empty text, as for inputs `""` or `W/`); conversely a tag with empty text
in any returned list forces the comma-free path, because the comma-separated
scan skips every token that resolves to empty text. -/
theorem parse_etags_single_tag_path (s : String) :
    ((pyStrip s.data ≠ [] ∧ (pyStrip s.data).any (fun c => c == ',') = false ∧
        pyStrip s.data ≠ ['*']) →
      parse_etags (some s) = Except.ok (some [singleEtag (pyStrip s.data)])) ∧
    (∀ l : List ETag, parse_etags (some s) = Except.ok (some l) →
      ∀ e ∈ l, e.tag = "" → (pyStrip s.data).any (fun c => c == ',') = false) := by
  constructor
  · rintro ⟨h1, h2, h3⟩
    have e1 : (pyStrip s.data).isEmpty = false := by
      rw [List.isEmpty_eq_false]
      exact h1
    simp [parse_etags, e1, h2, h3]
  · intro l hl e he htag
    by_cases hc : (pyStrip s.data).any (fun c => c == ',') = true
    · exfalso
      have e1 : (pyStrip s.data).isEmpty = false := by
        rw [List.isEmpty_eq_false]
        intro hnil
        rw [hnil] at hc
        simp at hc
      have e3 : pyStrip s.data ≠ ['*'] := by
        intro hstar
        rw [hstar] at hc
        simp at hc
      rw [parse_etags] at hl
      simp only [e1, Bool.false_eq_true, if_neg, hc, Bool.not_true, e3, if_false] at hl
      rcases hloop : etagScanLoop ((pyStrip s.data).length + 1) (pyStrip s.data) [] with
        _ | res
      · rw [hloop] at hl
        simp at hl
      · cases res with
        | error err => rw [hloop] at hl; simp at hl
        | ok l2 =>
          rw [hloop] at hl
          simp only [Except.ok.injEq, Option.some.injEq] at hl
          subst hl
          exact etagScanLoop_ok_tags _ _ _ _ (by intro e' he'; simp at he') hloop e he htag
    · rw [Bool.not_eq_true] at hc
      exact hc

/-- C10 witness: the inputs `""` (two quote characters) and `W/` each yield
exactly one tag, whose text is the empty string. -/
theorem parse_etags_single_tag_path_witness :
    parse_etags (some "\"\"") = Except.ok (some [singleEtag (pyStrip ("\"\"" : String).data)]) ∧
    singleEtag (pyStrip ("\"\"" : String).data) = make_etag "" false ∧
    parse_etags (some "W/") = Except.ok (some [singleEtag (pyStrip ("W/" : String).data)]) ∧
    singleEtag (pyStrip ("W/" : String).data) = make_etag "" true := by
  refine ⟨(parse_etags_single_tag_path "\"\"").1 (by decide), by decide,
    (parse_etags_single_tag_path "W/").1 (by decide), by decide⟩

theorem dropWhile_isSuffix (p : Char → Bool) : ∀ l : List Char, l.dropWhile p <:+ l := by
  intro l
  induction l with
  | nil => simp
  | cons c cs ih =>
    rw [List.dropWhile_cons]
    by_cases h : p c = true
    · rw [if_pos h]
      exact ih.trans (List.suffix_cons c cs)
    · rw [if_neg h]

theorem matchSep_suffix (cs r : List Char) (h : matchSep cs = some r) :
    r <:+ cs ∧ r.length < cs.length := by
  rw [matchSep] at h
  rcases hd : cs.dropWhile isPySpace with _ | ⟨c, rest⟩
  · rw [hd] at h; simp at h
  · rw [hd] at h
    by_cases hc : c = ','
    · subst hc
      simp only [Option.some.injEq] at h
      subst h
      have h1 : rest.dropWhile isPySpace <:+ rest := dropWhile_isSuffix _ rest
      have h2 : rest <:+ cs := by
        have h3 : (',' :: rest) <:+ cs := hd ▸ dropWhile_isSuffix _ cs
        exact (List.suffix_cons ',' rest).trans h3
      have h4 : (',' :: rest) <:+ cs := hd ▸ dropWhile_isSuffix _ cs
      refine ⟨h1.trans h2, ?_⟩
      have h5 := h1.length_le
      have h6 := h4.length_le
      simp only [List.length_cons] at h6
      omega
    · rw [show (match c :: rest with
        | ',' :: rest => some (rest.dropWhile isPySpace)
        | _ => none) = (none : Option (List Char)) from by
          cases hc2 : c
          simp_all] at h
      simp at h

theorem matchEndAlt_suffix (cs r : List Char) (h : matchEndAlt cs = some r) :
    r <:+ cs ∧ (r.length < cs.length ∨ cs = [] ∨ cs = ['\n']) := by
  rw [matchEndAlt] at h
  cases hs : matchSep cs with
  | some rest =>
    rw [hs] at h
    simp only [Option.some.injEq] at h
    subst h
    have := matchSep_suffix cs rest hs
    exact ⟨this.1, Or.inl this.2⟩
  | none =>
    rw [hs] at h
    by_cases hc : cs = [] ∨ cs = ['\n']
    · rw [if_pos hc] at h
      simp only [Option.some.injEq] at h
      subst h
      exact ⟨List.suffix_rfl, Or.inr hc⟩
    · rw [if_neg hc] at h
      simp at h

theorem quotedScan_suffix :
    ∀ (cs acc content r : List Char), quotedScan acc cs = some (content, r) →
      r <:+ cs ∧ r.length < cs.length := by
  intro cs
  induction cs with
  | nil => intro acc content r h; simp [quotedScan] at h
  | cons c rest ih =>
    intro acc content r h
    rw [quotedScan] at h
    by_cases hq : c = '"'
    · rw [if_pos hq] at h
      cases he : matchEndAlt rest with
      | some r2 =>
        rw [he] at h
        simp only [Option.some.injEq, Prod.mk.injEq] at h
        have hs := matchEndAlt_suffix rest r2 he
        obtain ⟨-, h2⟩ := h
        subst h2
        refine ⟨hs.1.trans (List.suffix_cons c rest), ?_⟩
        have := hs.1.length_le
        simp only [List.length_cons]
        omega
      | none =>
        rw [he] at h
        have := ih (c :: acc) content r h
        refine ⟨this.1.trans (List.suffix_cons c rest), ?_⟩
        simp only [List.length_cons]
        omega
    · rw [if_neg hq] at h
      by_cases hn : c = '\n'
      · rw [if_pos hn] at h; simp at h
      · rw [if_neg hn] at h
        have := ih (c :: acc) content r h
        refine ⟨this.1.trans (List.suffix_cons c rest), ?_⟩
        simp only [List.length_cons]
        omega

theorem rawScan_nil (acc : List Char) :
    rawScan acc [] =
      match matchEndAlt [] with
      | some r => some (acc.reverse, r)
      | none => none := rfl

theorem rawScan_cons (acc : List Char) (c : Char) (rest : List Char) :
    rawScan acc (c :: rest) =
      match matchEndAlt (c :: rest) with
      | some r => some (acc.reverse, r)
      | none => if c = '\n' then none else rawScan (c :: acc) rest := rfl

theorem rawScan_suffix :
    ∀ (cs acc content r : List Char), rawScan acc cs = some (content, r) →
      r <:+ cs ∧ (r.length < cs.length ∨ cs = [] ∨ cs = ['\n']) := by
  intro cs
  induction cs with
  | nil =>
    intro acc content r h
    rw [rawScan_nil] at h
    cases he : matchEndAlt [] with
    | some r2 =>
      rw [he] at h
      simp only [Option.some.injEq, Prod.mk.injEq] at h
      have hs := matchEndAlt_suffix [] r2 he
      obtain ⟨-, h2⟩ := h
      subst h2
      exact ⟨hs.1, Or.inr (Or.inl rfl)⟩
    | none => rw [he] at h; simp at h
  | cons c rest ih =>
    intro acc content r h
    rw [rawScan_cons] at h
    cases he : matchEndAlt (c :: rest) with
    | some r2 =>
      rw [he] at h
      simp only [Option.some.injEq, Prod.mk.injEq] at h
      have hs := matchEndAlt_suffix (c :: rest) r2 he
      obtain ⟨-, h2⟩ := h
      subst h2
      exact hs
    | none =>
      rw [he] at h
      by_cases hn : c = '\n'
      · rw [if_pos hn] at h; simp at h
      · rw [if_neg hn] at h
        have := ih (c :: acc) content r h
        refine ⟨this.1.trans (List.suffix_cons c rest), Or.inl ?_⟩
        simp only [List.length_cons]
        rcases this.2 with h2 | h2 | h2
        · omega
        · subst h2
          have hr : r = [] := List.suffix_nil.mp this.1
          subst hr
          simp
        · subst h2
          have hlen : r.length ≤ 1 := by simpa using this.1.length_le
          have hone : (['\n'] : List Char).length = 1 := rfl
          omega

theorem rawBody_suffix (cs : List Char) (q r : Option (List Char)) (rem : List Char)
    (h : rawBody cs = some (q, r, rem)) :
    rem <:+ cs ∧ (rem.length < cs.length ∨ cs = [] ∨ cs = ['\n']) := by
  rw [rawBody] at h
  cases hr : rawScan [] cs with
  | some p =>
    obtain ⟨content, r2⟩ := p
    rw [hr] at h
    simp only [Option.some.injEq, Prod.mk.injEq] at h
    obtain ⟨-, -, h3⟩ := h
    subst h3
    exact rawScan_suffix cs [] content r2 hr
  | none => rw [hr] at h; simp at h

theorem etagBody_suffix (cs : List Char) (q r : Option (List Char)) (rem : List Char)
    (h : etagBody cs = some (q, r, rem)) :
    rem <:+ cs ∧ (rem.length < cs.length ∨ cs = [] ∨ cs = ['\n']) := by
  cases cs with
  | nil => exact rawBody_suffix [] q r rem h
  | cons c rest =>
    rw [etagBody] at h
    by_cases hc : c = '"'
    · rw [if_pos hc] at h
      cases hqs : quotedScan [] rest with
      | some p =>
        obtain ⟨content, r2⟩ := p
        rw [hqs] at h
        simp only [Option.some.injEq, Prod.mk.injEq] at h
        obtain ⟨-, -, h3⟩ := h
        subst h3
        have hs := quotedScan_suffix rest [] content r2 hqs
        refine ⟨hs.1.trans (List.suffix_cons _ rest), Or.inl ?_⟩
        simp only [List.length_cons]
        omega
      | none =>
        rw [hqs] at h
        exact rawBody_suffix _ q r rem h
    · rw [if_neg hc] at h
      exact rawBody_suffix _ q r rem h

theorem bodyNoWeak_suffix (cs : List Char) (w : Bool) (q r : Option (List Char))
    (rem : List Char) (h : bodyNoWeak cs = some (w, q, r, rem)) :
    rem <:+ cs ∧ (rem.length < cs.length ∨ cs = [] ∨ cs = ['\n']) := by
  rw [bodyNoWeak] at h
  cases hb : etagBody cs with
  | some p =>
    obtain ⟨q2, r2, rem2⟩ := p
    rw [hb] at h
    simp only [Option.some.injEq, Prod.mk.injEq] at h
    obtain ⟨-, -, -, h4⟩ := h
    subst h4
    exact etagBody_suffix cs q2 r2 rem2 hb
  | none => rw [hb] at h; simp at h

theorem etagTokenMatch_suffix (cs : List Char) (w : Bool) (q r : Option (List Char))
    (rest : List Char) (h : etagTokenMatch cs = some (w, q, r, rest)) :
    rest <:+ cs ∧ (rest.length < cs.length ∨ cs = [] ∨ cs = ['\n']) := by
  cases cs with
  | nil => exact bodyNoWeak_suffix [] w q r rest h
  | cons c cs2 =>
    cases cs2 with
    | nil => exact bodyNoWeak_suffix [c] w q r rest h
    | cons d rest2 =>
      rw [etagTokenMatch] at h
      by_cases hw : (c = 'W' ∨ c = 'w') ∧ d = '/'
      · rw [if_pos hw] at h
        cases hb : etagBody rest2 with
        | some p =>
          obtain ⟨q2, r2, rem2⟩ := p
          rw [hb] at h
          simp only [Option.some.injEq, Prod.mk.injEq] at h
          obtain ⟨-, -, -, h4⟩ := h
          subst h4
          have hs := etagBody_suffix rest2 q2 r2 rem2 hb
          have hsl := hs.1.length_le
          refine ⟨(hs.1.trans (List.suffix_cons d rest2)).trans (List.suffix_cons c (d :: rest2)),
            Or.inl ?_⟩
          simp only [List.length_cons]
          omega
        | none =>
          rw [hb] at h
          exact bodyNoWeak_suffix _ w q r rest h
      · rw [if_neg hw] at h
        exact bodyNoWeak_suffix _ w q r rest h

theorem suffix_getLast {l1 l2 : List Char} (h : l1 <:+ l2) (hne : l1 ≠ []) :
    l1.getLast? = l2.getLast? := by
  obtain ⟨t, rfl⟩ := h
  exact (List.getLast?_append_of_ne_nil t hne).symm

theorem head?_dropWhile_not (p : Char → Bool) :
    ∀ (l : List Char) (c : Char), (l.dropWhile p).head? = some c → p c = false := by
  intro l
  induction l with
  | nil => intro c h; simp at h
  | cons a l ih =>
    intro c h
    rw [List.dropWhile_cons] at h
    by_cases hp : p a = true
    · rw [if_pos hp] at h
      exact ih c h
    · rw [if_neg hp] at h
      simp only [List.head?_cons, Option.some.injEq] at h
      subst h
      simpa using hp

theorem pyStrip_getLast_not_space (cs : List Char) (c : Char)
    (h : (pyStrip cs).getLast? = some c) : isPySpace c = false := by
  rw [pyStrip, List.getLast?_reverse] at h
  exact head?_dropWhile_not isPySpace _ c h

theorem etagScanLoop_isSome (fuel : Nat) :
    ∀ (cs : List Char) (acc : List ETag), cs.length < fuel → cs.getLast? ≠ some '\n' →
      (etagScanLoop fuel cs acc).isSome = true := by
  induction fuel with
  | zero => intro cs acc h _; omega
  | succ fuel ih =>
    intro cs acc hlen hlast
    rw [etagScanLoop]
    by_cases hcs : cs.isEmpty = true
    · rw [if_pos hcs]
      rfl
    · rw [if_neg hcs]
      cases hm : etagTokenMatch cs with
      | none => rfl
      | some p =>
        obtain ⟨w, q, r, rest⟩ := p
        simp only []
        have hne : cs ≠ [] := fun hnil => hcs (by simp [hnil])
        have hs := etagTokenMatch_suffix cs w q r rest hm
        have hstrict : rest.length < cs.length := by
          rcases hs.2 with h2 | h2 | h2
          · exact h2
          · exact absurd h2 hne
          · exfalso
            apply hlast
            rw [h2]
            rfl
        apply ih
        · omega
        · by_cases hrn : rest = []
          · rw [hrn]
            simp
          · rw [suffix_getLast hs.1 hrn]
            exact hlast

/-- C9 counterexample.  On the input `a,b\nc` the scan consumes the token `a,`
and then reaches the position of `b\nc`, where the pattern cannot match (the
lazy content class excludes the newline, behind which there is no comma or
end), and the source evaluates `match.groups()` on the failed match: the call
raises `AttributeError` — modelled by `Except.error ()` — instead of stopping
the scan and returning the partial result `[a]` as the claim states. -/
theorem parse_etags_unmatched_tail_cex :
    parse_etags (some "a,b\nc") = Except.error () ∧
    (Except.error () : Except Unit (Option (List ETag))) ≠
      Except.ok (some [make_etag "a" false]) := by
  refine ⟨rfl, ?_⟩
  intro h
  exact Except.noConfusion h

/-- C9 as amended: the comma-separated scan of `parse_etags` terminates for
every input string (the fuel `length + 1` is never exhausted on the stripped
string the loop receives); every matched token strictly advances the parse
position whenever the suffix at hand does not end in a newline (true of every
suffix the loop visits, since the input was stripped); and when no match
exists at some position the scan terminates by raising an error — the
`AttributeError` from `match.groups()` on `None` — rather than by returning
the partial result. -/
theorem etagScan_terminates_progress :
    (∀ s : String,
      (etagScanLoop ((pyStrip s.data).length + 1) (pyStrip s.data) []).isSome = true) ∧
    (∀ (cs : List Char) (w : Bool) (q r : Option (List Char)) (rest : List Char),
      cs ≠ [] → cs.getLast? ≠ some '\n' →
      etagTokenMatch cs = some (w, q, r, rest) → rest.length < cs.length) ∧
    (∀ (fuel : Nat) (cs : List Char) (acc : List ETag), cs ≠ [] →
      etagTokenMatch cs = none →
      etagScanLoop (fuel + 1) cs acc = some (Except.error ())) := by
  refine ⟨?_, ?_, ?_⟩
  · intro s
    apply etagScanLoop_isSome
    · omega
    · intro hlast
      have := pyStrip_getLast_not_space s.data '\n' hlast
      simp [isPySpace] at this
  · intro cs w q r rest hne hlast hm
    have hs := etagTokenMatch_suffix cs w q r rest hm
    rcases hs.2 with h2 | h2 | h2
    · exact h2
    · exact absurd h2 hne
    · exfalso
      apply hlast
      rw [h2]
      rfl
  · intro fuel cs acc hne hm
    rw [etagScanLoop, if_neg (fun h => hne (List.isEmpty_iff.mp h)), hm]

/-- C9 witness: the loop terminates on the stripped form of `a, b`, and with
`b\nc` at hand (no match exists there) one step of the loop yields the error
outcome. -/
theorem etagScan_terminates_progress_witness :
    (etagScanLoop ((pyStrip ("a, b" : String).data).length + 1)
      (pyStrip ("a, b" : String).data) []).isSome = true ∧
    etagScanLoop 1 ("b\nc" : String).data [] = some (Except.error ()) ∧
    (∃ w q r rest, etagTokenMatch ("a, b" : String).data = some (w, q, r, rest) ∧
      rest.length < ("a, b" : String).data.length) := by
  refine ⟨etagScan_terminates_progress.1 "a, b",
    etagScan_terminates_progress.2.2 0 ("b\nc" : String).data [] (by decide) (by decide),
    ⟨false, none, some ("a".data), "b".data, rfl, ?_⟩⟩
  exact etagScan_terminates_progress.2.1 ("a, b" : String).data false none (some ("a".data))
    ("b".data) (by decide) (by decide) rfl
